import Mathlib

/-!
Verification of the patch-sampling and motion-artifact subsystem of the
torchio repository.

The development shallowly embeds the relevant Python code in Lean:

* `torchio/data/sampler/weighted.py` — `WeightedSampler`: border clearing,
  probability-map processing, the cumulative-distribution construction and
  inverse-transform sampling (`Torchio.Weighted` namespace);
* `src/torchio/transforms/augmentation/intensity/random_motion.py` — the
  current `RandomMotion`/`Motion` transforms: 2D parameter zeroing, spectrum
  reordering (`sort_spectra`) and k-space segment compositing
  (`Torchio.Motion` namespace);
* `torchio/transforms/random_motion.py` — the legacy `RandomMotion`:
  chunked spectral compositing (`Torchio.LegacyMotion` namespace).

Real scalars (NumPy floats) are modelled as exact rationals `ℚ`; machine
arrays as Lean `List`s / tuples.  Fallible code returns `Option`/`Except`.
-/

namespace Torchio

/-! ### Shapes, flat indices and `np.unravel_index`

A NumPy 3D array of shape `(i, j, k)` is modelled as its C-order
flattening: a `List ℚ` of length `i * j * k` together with a `Shape3`.
-/

/-- A spatial shape (or patch size): a triple of natural numbers. -/
structure Shape3 where
  i : ℕ
  j : ℕ
  k : ℕ
deriving DecidableEq, Repr

/-- Number of voxels of a 3D array of shape `s`. -/
def Shape3.volume (s : Shape3) : ℕ := s.i * s.j * s.k

/-- C-order flat index of voxel `(a, b, c)` in an array of shape `s`. -/
def flatIndex (s : Shape3) (a b c : ℕ) : ℕ := (a * s.j + b) * s.k + c

/-- `np.unravel_index` for a 3D C-order array of shape `s`. -/
def unravel (s : Shape3) (n : ℕ) : ℕ × ℕ × ℕ :=
  (n / (s.j * s.k), n / s.k % s.j, n % s.k)

theorem flatIndex_unravel (s : Shape3) (n : ℕ) :
    flatIndex s (unravel s n).1 (unravel s n).2.1 (unravel s n).2.2 = n := by
  unfold flatIndex unravel
  simp only
  have h1 : n / s.k / s.j = n / (s.j * s.k) := by
    rw [Nat.div_div_eq_div_mul, Nat.mul_comm]
  have e1 : n / s.k / s.j * s.j + n / s.k % s.j = n / s.k := Nat.div_add_mod' _ _
  have e2 : n / s.k * s.k + n % s.k = n := Nat.div_add_mod' _ _
  rw [← h1, e1, e2]

theorem unravel_lt (s : Shape3) (n : ℕ) (hn : n < s.volume) :
    (unravel s n).1 < s.i ∧ (unravel s n).2.1 < s.j ∧ (unravel s n).2.2 < s.k := by
  unfold unravel Shape3.volume at *
  have hjk : 0 < s.j * s.k := by
    rcases Nat.eq_zero_or_pos (s.j * s.k) with h | h
    · rw [Nat.mul_assoc, h, Nat.mul_zero] at hn; omega
    · exact h
  have hj : 0 < s.j := by
    rcases Nat.eq_zero_or_pos s.j with h | h
    · rw [h, Nat.zero_mul] at hjk; omega
    · exact h
  have hk : 0 < s.k := by
    rcases Nat.eq_zero_or_pos s.k with h | h
    · rw [h, Nat.mul_zero] at hjk; omega
    · exact h
  refine ⟨?_, Nat.mod_lt _ hj, Nat.mod_lt _ hk⟩
  have hn' : n < s.j * s.k * s.i := by
    rw [Nat.mul_comm (s.j * s.k) s.i, ← Nat.mul_assoc]; exact hn
  exact Nat.div_lt_of_lt_mul hn'

/-! ### Cumulative sums (`np.cumsum`) -/

/-- `np.cumsum` on a flat list. -/
def cumsum : List ℚ → List ℚ
  | [] => []
  | x :: xs => x :: (cumsum xs).map (x + ·)

theorem cumsum_length (l : List ℚ) : (cumsum l).length = l.length := by
  induction l with
  | nil => rfl
  | cons x xs ih => simp [cumsum, ih]

theorem cumsum_getD (l : List ℚ) (n : ℕ) (hn : n < l.length) :
    (cumsum l).getD n 0 = (l.take (n + 1)).sum := by
  induction l generalizing n with
  | nil => simp at hn
  | cons x xs ih =>
    cases n with
    | zero => simp [cumsum]
    | succ m =>
      have hm : m < xs.length := by simpa using hn
      have hm' : m < (cumsum xs).length := by rw [cumsum_length]; exact hm
      calc (cumsum (x :: xs)).getD (m + 1) 0
          = ((cumsum xs).map (x + ·)).getD m 0 := by simp [cumsum]
        _ = x + (cumsum xs).getD m 0 := by
            rw [List.getD_eq_getElem _ _ (by simpa using hm'),
              List.getD_eq_getElem _ _ hm', List.getElem_map]
        _ = x + (xs.take (m + 1)).sum := by rw [ih m hm]
        _ = ((x :: xs).take (m + 1 + 1)).sum := by simp

theorem cumsum_getD_last (l : List ℚ) (hne : l ≠ []) :
    (cumsum l).getD (l.length - 1) 0 = l.sum := by
  have hlen : 0 < l.length := List.length_pos.2 hne
  rw [cumsum_getD l (l.length - 1) (by omega)]
  have : l.length - 1 + 1 = l.length := by omega
  rw [this, List.take_length]

theorem cumsum_getD_succ (l : List ℚ) (n : ℕ) (hn : n + 1 < l.length) :
    (cumsum l).getD (n + 1) 0 =
      (cumsum l).getD n 0 + l.getD (n + 1) 0 := by
  rw [cumsum_getD l (n + 1) hn, cumsum_getD l n (by omega),
    List.sum_take_succ l (n + 1) hn, List.getD_eq_getElem l 0 hn]

theorem cumsum_getD_zero (l : List ℚ) : (cumsum l).getD 0 0 = l.getD 0 0 := by
  cases l with
  | nil => rfl
  | cons x xs => simp [cumsum]

/-! ### Generic list facts -/

theorem list_sum_nonpos (l : List ℚ) (h : ∀ x ∈ l, x ≤ 0) : l.sum ≤ 0 := by
  induction l with
  | nil => simp
  | cons x xs ih =>
    simp only [List.sum_cons]
    have h1 := h x (by simp)
    have h2 := ih fun y hy => h y (by simp [hy])
    linarith

theorem exists_pos_of_sum_pos (l : List ℚ) (h : 0 < l.sum) : ∃ x ∈ l, 0 < x := by
  by_contra hc
  push_neg at hc
  have := list_sum_nonpos l hc
  linarith

theorem sum_map_div (l : List ℚ) (t : ℚ) : (l.map (· / t)).sum = l.sum / t := by
  induction l with
  | nil => simp
  | cons x xs ih => simp [ih, add_div]

theorem map_getD_range (l : List ℚ) :
    ((List.range l.length).map fun n => l.getD n 0) = l := by
  apply List.ext_getElem
  · simp
  · intro i h1 h2
    simp only [List.getElem_map, List.getElem_range]
    exact List.getD_eq_getElem l 0 h2

theorem sorted_le_last (l : List ℚ) (hs : List.Sorted (· ≤ ·) l)
    (i : ℕ) (hi : i < l.length) : l[i] ≤ l.getD (l.length - 1) 0 := by
  rw [List.getD_eq_getElem l 0 (by omega)]
  rcases Nat.lt_or_ge i (l.length - 1) with h | h
  · exact hs.rel_get_of_lt (a := ⟨i, hi⟩) (b := ⟨l.length - 1, by omega⟩) (by simpa using h)
  · have hieq : i = l.length - 1 := by omega
    subst hieq
    exact le_refl _

namespace Weighted

/-! ### `WeightedSampler` (torchio/data/sampler/weighted.py)

A probability map of shape `s` is its C-order flattening, a `List ℚ`.
-/

/-- Voxel `(a, b, c)` is zeroed by
`WeightedSampler.clear_probability_borders` for shape `s` and patch size
`ps`: within `patch_size // 2` of the near border or within
`(patch_size - 1) // 2` of the far border (far clearing skipped on an axis
when that margin is zero, as in the `if crop_i:` guards in the source). -/
def ClearedAt (s ps : Shape3) (a b c : ℕ) : Prop :=
  a < ps.i / 2 ∨ b < ps.j / 2 ∨ c < ps.k / 2 ∨
  ((ps.i - 1) / 2 ≠ 0 ∧ s.i - (ps.i - 1) / 2 ≤ a) ∨
  ((ps.j - 1) / 2 ≠ 0 ∧ s.j - (ps.j - 1) / 2 ≤ b) ∨
  ((ps.k - 1) / 2 ≠ 0 ∧ s.k - (ps.k - 1) / 2 ≤ c)

instance (s ps : Shape3) (a b c : ℕ) : Decidable (ClearedAt s ps a b c) :=
  inferInstanceAs (Decidable
    (a < ps.i / 2 ∨ b < ps.j / 2 ∨ c < ps.k / 2 ∨
    ((ps.i - 1) / 2 ≠ 0 ∧ s.i - (ps.i - 1) / 2 ≤ a) ∨
    ((ps.j - 1) / 2 ≠ 0 ∧ s.j - (ps.j - 1) / 2 ≤ b) ∨
    ((ps.k - 1) / 2 ≠ 0 ∧ s.k - (ps.k - 1) / 2 ≤ c)))

/-- `WeightedSampler.clear_probability_borders` on the flat map. -/
def clear_probability_borders (s ps : Shape3) (l : List ℚ) : List ℚ :=
  (List.range l.length).map fun n =>
    if ClearedAt s ps (unravel s n).1 (unravel s n).2.1 (unravel s n).2.2 then 0
    else l.getD n 0

theorem clear_length (s ps : Shape3) (l : List ℚ) :
    (clear_probability_borders s ps l).length = l.length := by
  simp [clear_probability_borders]

theorem clear_getD (s ps : Shape3) (l : List ℚ) (n : ℕ) (hn : n < l.length) :
    (clear_probability_borders s ps l).getD n 0 =
      if ClearedAt s ps (unravel s n).1 (unravel s n).2.1 (unravel s n).2.2 then 0
      else l.getD n 0 := by
  rw [List.getD_eq_getElem _ 0 (by rw [clear_length]; exact hn)]
  simp [clear_probability_borders]

theorem clear_getD' (s ps : Shape3) (l q : List ℚ)
    (hql : q = clear_probability_borders s ps l) (n : ℕ) (hn : n < l.length) :
    q.getD n 0 =
      if ClearedAt s ps (unravel s n).1 (unravel s n).2.1 (unravel s n).2.2 then 0
      else l.getD n 0 := by
  rw [hql]
  exact clear_getD s ps l n hn

/-- `WeightedSampler.process_probability_map`: uniform fallback when the
raw map sums to zero, normalization, border clearing, and the final
`assert data.sum() > 0` (modelled as `none` on failure). -/
def process_probability_map (s ps : Shape3) (pmap : List ℚ) : Option (List ℚ) :=
  let d1 := if pmap.sum = 0 then pmap.map (· + 1) else pmap
  let d2 := d1.map (· / d1.sum)
  let d3 := clear_probability_borders s ps d2
  if 0 < d3.sum then some d3 else none

/-- `np.argsort` on the flat map, realised as a stable sort of the index
range by value. -/
def sort_indices (l : List ℚ) : List ℕ :=
  List.insertionSort (fun a b => l.getD a 0 ≤ l.getD b 0) (List.range l.length)

/-- `WeightedSampler.get_cumulative_distribution_function`: flatten,
normalize, argsort, sort, cumulative sum.  Returns `(cdf, sort_indices)`. -/
def get_cumulative_distribution_function (pmap : List ℚ) : List ℚ × List ℕ :=
  let norm := pmap.map (· / pmap.sum)
  let si := sort_indices norm
  (cumsum (si.map fun n => norm.getD n 0), si)

/-- `ndarray.max()` of a flat array. -/
def npmax (l : List ℚ) : ℚ := l.foldl max (l.headD 0)

/-- `np.argmax(u < cdf)`: index of the first entry exceeding `u`, or `0`
when there is none. -/
def argmax_lt (u : ℚ) (cdf : List ℚ) : ℕ :=
  if cdf.any fun c => decide (u < c) then cdf.findIdx fun c => decide (u < c) else 0

/-- The flat voxel index drawn by `WeightedSampler.sample_probability_map`
for the uniform draw `u`: the `u > cdf.max()` drift branch selects the last
sorted position (`cdf_index = -1`), otherwise `np.argmax(u < cdf)`; the
sorted position is mapped back through `sort_indices`. -/
def sampled_flat_index (pmap : List ℚ) (u : ℚ) : ℕ :=
  let p := get_cumulative_distribution_function pmap
  let cdfIndex := if npmax p.1 < u then p.1.length - 1 else argmax_lt u p.1
  p.2.getD cdfIndex 0

/-- `WeightedSampler.sample_probability_map`: the sampled center voxel. -/
def sample_probability_map (s : Shape3) (pmap : List ℚ) (u : ℚ) : ℕ × ℕ × ℕ :=
  unravel s (sampled_flat_index pmap u)

/-- `WeightedSampler.get_random_index_ini`: `center - patch_size // 2`,
componentwise over ℤ. -/
def get_random_index_ini (s ps : Shape3) (pmap : List ℚ) (u : ℚ) : ℤ × ℤ × ℤ :=
  (((sample_probability_map s pmap u).1 : ℤ) - (ps.i / 2 : ℕ),
    (((sample_probability_map s pmap u).2.1 : ℤ) - (ps.j / 2 : ℕ),
      ((sample_probability_map s pmap u).2.2 : ℤ) - (ps.k / 2 : ℕ)))

/-- Core soundness of the inverse-transform sampling step: for a map with
positive total mass and a draw `0 ≤ u < 1`, the drawn flat index is in
range and the map's value there is strictly positive (both branches of the
`u > cdf.max()` test included). -/
theorem sampled_value_pos (pmap : List ℚ) (u : ℚ)
    (hsum : 0 < pmap.sum) (hu0 : 0 ≤ u) (hu1 : u < 1) :
    sampled_flat_index pmap u < pmap.length ∧
      0 < pmap.getD (sampled_flat_index pmap u) 0 := by
  have hne : pmap ≠ [] := by
    intro h
    rw [h] at hsum
    simp at hsum
  have hn : 0 < pmap.length := List.length_pos.2 hne
  set n := pmap.length with hndef
  set norm := pmap.map (· / pmap.sum) with hnormdef
  have hnormlen : norm.length = n := by simp [hnormdef]
  set si := sort_indices norm with hsidef
  have hperm : List.Perm si (List.range n) := by
    rw [hsidef, sort_indices, ← hnormlen]
    exact List.perm_insertionSort _ _
  have hsilen : si.length = n := by
    rw [hperm.length_eq, List.length_range]
  set svals := si.map fun m => norm.getD m 0 with hsvalsdef
  have hsvalslen : svals.length = n := by rw [hsvalsdef, List.length_map, hsilen]
  set cdf := cumsum svals with hcdfdef
  have hcdflen : cdf.length = n := by rw [hcdfdef, cumsum_length, hsvalslen]
  -- the sorted normalized values sum to one
  have hsvalssum : svals.sum = 1 := by
    have h1 : svals.sum = ((List.range n).map fun m => norm.getD m 0).sum :=
      (hperm.map fun m => norm.getD m 0).sum_eq
    rw [h1, ← hnormlen, map_getD_range, hnormdef, sum_map_div, div_self hsum.ne']
  have hsorted : List.Sorted (· ≤ ·) svals := by
    haveI : IsTotal ℕ fun a b => norm.getD a 0 ≤ norm.getD b 0 :=
      ⟨fun a b => le_total _ _⟩
    haveI : IsTrans ℕ fun a b => norm.getD a 0 ≤ norm.getD b 0 :=
      ⟨fun a b c hab hbc => le_trans hab hbc⟩
    have h := List.sorted_insertionSort
      (fun a b => norm.getD a 0 ≤ norm.getD b 0) (List.range norm.length)
    exact List.Pairwise.map _ (fun a b hab => hab) h
  have hcdflast : cdf.getD (n - 1) 0 = 1 := by
    have := cumsum_getD_last svals (by rw [← List.length_pos, hsvalslen]; exact hn)
    rw [hsvalssum] at this
    rw [hcdfdef, ← hsvalslen]
    exact this
  -- the chosen sorted position has a strictly positive sorted value
  have key : ∀ idx : ℕ,
      idx = (if npmax cdf < u then cdf.length - 1 else argmax_lt u cdf) →
      idx < n ∧ 0 < svals.getD idx 0 := by
    intro idx hidx
    by_cases hmax : npmax cdf < u
    · rw [if_pos hmax] at hidx
      subst hidx
      rw [hcdflen]
      refine ⟨by omega, ?_⟩
      obtain ⟨x, hxmem, hxpos⟩ := exists_pos_of_sum_pos svals (by rw [hsvalssum]; norm_num)
      obtain ⟨m, hm, rfl⟩ := List.getElem_of_mem hxmem
      calc (0:ℚ) < svals[m] := hxpos
        _ ≤ svals.getD (svals.length - 1) 0 := sorted_le_last svals hsorted m hm
        _ = svals.getD (n - 1) 0 := by rw [hsvalslen]
    · rw [if_neg hmax] at hidx
      have hany : (cdf.any fun c => decide (u < c)) = true := by
        rw [List.any_eq_true]
        refine ⟨cdf.getD (n - 1) 0, ?_, by rw [hcdflast]; simpa using hu1⟩
        rw [List.getD_eq_getElem cdf 0 (by omega)]
        exact List.getElem_mem _
      rw [argmax_lt, if_pos hany] at hidx
      have hex : ∃ x ∈ cdf, (fun c => decide (u < c)) x = true := List.any_eq_true.1 hany
      have hlt : cdf.findIdx (fun c => decide (u < c)) < cdf.length :=
        List.findIdx_lt_length_of_exists hex
      have hub : u < cdf.getD (cdf.findIdx fun c => decide (u < c)) 0 := by
        rw [List.getD_eq_getElem cdf 0 hlt]
        have := List.findIdx_getElem (w := hlt)
        simpa using this
      have hlb : ∀ m, m < (cdf.findIdx fun c => decide (u < c)) → cdf.getD m 0 ≤ u := by
        intro m hm
        rw [List.getD_eq_getElem cdf 0 (by omega)]
        have := List.not_of_lt_findIdx hm
        simpa using this
      subst hidx
      refine ⟨by omega, ?_⟩
      rcases Nat.eq_zero_or_pos (cdf.findIdx fun c => decide (u < c)) with hz | hp
      · rw [hz]
        rw [hz, hcdfdef, cumsum_getD_zero] at hub
        linarith
      · obtain ⟨m', hm'⟩ : ∃ m', (cdf.findIdx fun c => decide (u < c)) = m' + 1 :=
          ⟨(cdf.findIdx fun c => decide (u < c)) - 1, by omega⟩
        rw [hm']
        rw [hm'] at hub
        have hlbm : cdf.getD m' 0 ≤ u := hlb m' (by omega)
        have hrec : cdf.getD (m' + 1) 0 = cdf.getD m' 0 + svals.getD (m' + 1) 0 := by
          rw [hcdfdef]
          exact cumsum_getD_succ svals m' (by rw [hsvalslen, ← hcdflen]; omega)
        rw [hrec] at hub
        linarith
  obtain ⟨hidxlt, hvalpos⟩ := key _ rfl
  -- transport positivity through `sort_indices` back to the flat map
  have hflat : sampled_flat_index pmap u =
      si.getD (if npmax cdf < u then cdf.length - 1 else argmax_lt u cdf) 0 := by
    rfl
  set idx := (if npmax cdf < u then cdf.length - 1 else argmax_lt u cdf) with hidxdef
  have hsi_lt : si.getD idx 0 < n := by
    have hmem : si.getD idx 0 ∈ si := by
      rw [List.getD_eq_getElem si 0 (by rw [hsilen]; exact hidxlt)]
      exact List.getElem_mem _
    have := hperm.mem_iff.1 hmem
    simpa using this
  have hval : svals.getD idx 0 = norm.getD (si.getD idx 0) 0 := by
    rw [hsvalsdef, List.getD_eq_getElem _ 0 (by rw [List.length_map, hsilen]; exact hidxlt),
      List.getElem_map, List.getD_eq_getElem si 0 (by rw [hsilen]; exact hidxlt)]
  constructor
  · rw [hflat]
    exact hsi_lt
  · rw [hflat]
    rw [hval] at hvalpos
    have hnval : norm.getD (si.getD idx 0) 0 =
        pmap.getD (si.getD idx 0) 0 / pmap.sum := by
      rw [hnormdef, List.getD_eq_getElem _ 0 (by rw [List.length_map]; exact hsi_lt),
        List.getElem_map, List.getD_eq_getElem pmap 0 hsi_lt]
    rw [hnval] at hvalpos
    have := mul_pos hvalpos hsum
    rwa [div_mul_cancel₀ _ hsum.ne'] at this

theorem process_probability_map_eq (s ps : Shape3) (dat pmap : List ℚ)
    (hproc : process_probability_map s ps dat = some pmap) :
    pmap = clear_probability_borders s ps
      ((if dat.sum = 0 then dat.map (· + 1) else dat).map
        (· / (if dat.sum = 0 then dat.map (· + 1) else dat).sum)) ∧
    0 < pmap.sum := by
  simp only [process_probability_map] at hproc
  by_cases h0 : dat.sum = 0
  · simp only [if_pos h0] at hproc ⊢
    split_ifs at hproc with hpos
    exact ⟨(Option.some.inj hproc).symm, (Option.some.inj hproc) ▸ hpos⟩
  · simp only [if_neg h0] at hproc ⊢
    split_ifs at hproc with hpos
    exact ⟨(Option.some.inj hproc).symm, (Option.some.inj hproc) ▸ hpos⟩

theorem process_probability_map_length (s ps : Shape3) (dat pmap : List ℚ)
    (hproc : process_probability_map s ps dat = some pmap) :
    pmap.length = dat.length := by
  obtain ⟨rfl, -⟩ := process_probability_map_eq s ps dat pmap hproc
  rw [clear_length, List.length_map]
  split_ifs <;> simp

/-- A named image of a subject: spatial shape plus flat voxel data. -/
structure Image where
  shape : Shape3
  voxels : List ℚ
deriving DecidableEq, Repr

/-- A subject: an association list of named images. -/
structure Subject where
  images : List (String × Image)
deriving DecidableEq, Repr

/-- `Subject.check_consistent_shape`: all images share one spatial shape. -/
def ConsistentShape (sub : Subject) : Prop :=
  ∀ p ∈ sub.images, ∀ q ∈ sub.images, (Prod.snd p).shape = (Prod.snd q).shape

instance (sub : Subject) : Decidable (ConsistentShape sub) :=
  inferInstanceAs (Decidable
    (∀ p ∈ sub.images, ∀ q ∈ sub.images, (Prod.snd p).shape = (Prod.snd q).shape))

/-- `sample.spatial_shape`: the shared shape (of the first image). -/
def spatial_shape (sub : Subject) : Shape3 :=
  ((sub.images.headD ("", ⟨⟨0, 0, 0⟩, []⟩)).2).shape

/-- `np.any(self.patch_size > sample.spatial_shape)`. -/
def PatchTooLarge (ps sh : Shape3) : Prop :=
  sh.i < ps.i ∨ sh.j < ps.j ∨ sh.k < ps.k

instance (ps sh : Shape3) : Decidable (PatchTooLarge ps sh) :=
  inferInstanceAs (Decidable (sh.i < ps.i ∨ sh.j < ps.j ∨ sh.k < ps.k))

/-- `self.probability_map_name in sample` / `sample[name].data`. -/
def lookup_image (sub : Subject) (name : String) : Option Image :=
  (sub.images.find? fun p => p.1 == name).map Prod.snd

/-- The error classes surfaced by `WeightedSampler.__call__` and
`WeightedSampler.get_probability_map`. -/
inductive SamplerError
  | shapeInconsistency
  | runtimeError
  | keyError
  | valueError
  | assertionFailure
deriving DecidableEq, Repr

/-- The generator loop of `WeightedSampler.__call__`: one uniform draw
(`torch.rand(1)` in `sample_probability_map`) is consumed per patch. -/
def extract_patches (s ps : Shape3) (pm : List ℚ) :
    ℕ → List ℚ → List (ℤ × ℤ × ℤ) × List ℚ
  | 0, draws => ([], draws)
  | _ + 1, [] => ([], [])
  | n + 1, u :: draws =>
    let rest := extract_patches s ps pm n draws
    (get_random_index_ini s ps pm u :: rest.1, rest.2)

/-- `WeightedSampler.__call__` for a finite `num_patches`: consistency
check, patch-size check, probability-map lookup and negativity check
(`get_probability_map`), map processing, then the patch generator.  The
second component is the part of the random stream left unconsumed. -/
def sampler_call (ps : Shape3) (name : String) (sub : Subject) (numPatches : ℕ)
    (draws : List ℚ) : Except SamplerError (List (ℤ × ℤ × ℤ)) × List ℚ :=
  if ¬ ConsistentShape sub then (Except.error SamplerError.shapeInconsistency, draws)
  else if PatchTooLarge ps (spatial_shape sub) then
    (Except.error SamplerError.runtimeError, draws)
  else
    match lookup_image sub name with
    | none => (Except.error SamplerError.keyError, draws)
    | some img =>
      if img.voxels.any fun x => decide (x < 0) then
        (Except.error SamplerError.valueError, draws)
      else
        match process_probability_map (spatial_shape sub) ps img.voxels with
        | none => (Except.error SamplerError.assertionFailure, draws)
        | some pm =>
          let r := extract_patches (spatial_shape sub) ps pm numPatches draws
          (Except.ok r.1, r.2)

end Weighted

/-- **C7.** On a shape-consistent subject, `WeightedSampler`'s sampling
fails before yielding any patch and before consuming any random draw
(the unconsumed stream is returned untouched): with a `RuntimeError`
when any patch-size component exceeds the spatial shape; with a
`KeyError` when the probability-map name is absent (and the patch size
fits); and with a `ValueError` when some probability-map value is
negative (name present, patch size fits). -/
theorem weighted_call_fail_fast (ps : Shape3) (name : String) (sub : Weighted.Subject)
    (numPatches : ℕ) (draws : List ℚ) (hcons : Weighted.ConsistentShape sub) :
    (Weighted.PatchTooLarge ps (Weighted.spatial_shape sub) →
      Weighted.sampler_call ps name sub numPatches draws =
        (Except.error Weighted.SamplerError.runtimeError, draws)) ∧
    (¬ Weighted.PatchTooLarge ps (Weighted.spatial_shape sub) →
      Weighted.lookup_image sub name = none →
      Weighted.sampler_call ps name sub numPatches draws =
        (Except.error Weighted.SamplerError.keyError, draws)) ∧
    (∀ img, ¬ Weighted.PatchTooLarge ps (Weighted.spatial_shape sub) →
      Weighted.lookup_image sub name = some img →
      (∃ x ∈ img.voxels, x < 0) →
      Weighted.sampler_call ps name sub numPatches draws =
        (Except.error Weighted.SamplerError.valueError, draws)) := by
  refine ⟨?_, ?_, ?_⟩
  · intro hbig
    rw [Weighted.sampler_call, if_neg (not_not_intro hcons), if_pos hbig]
  · intro hbig hnone
    rw [Weighted.sampler_call, if_neg (not_not_intro hcons), if_neg hbig, hnone]
  · intro img hbig hsome hneg
    obtain ⟨x, hxmem, hxneg⟩ := hneg
    have hany : (img.voxels.any fun x => decide (x < 0)) = true :=
      List.any_eq_true.2 ⟨x, hxmem, by simpa using hxneg⟩
    rw [Weighted.sampler_call, if_neg (not_not_intro hcons), if_neg hbig, hsome]
    simp only [hany]
    rfl

/-- Witness for C7 at three concrete configurations: an oversized patch,
a missing probability-map name, and a negative map value. -/
theorem weighted_call_fail_fast_witness :
    (Weighted.sampler_call ⟨3, 1, 1⟩ "t1"
        ⟨[("t1", ⟨⟨2, 2, 2⟩, [1, 1, 1, 1, 1, 1, 1, 1]⟩)]⟩ 5 [1/2] =
      (Except.error Weighted.SamplerError.runtimeError, [1/2])) ∧
    (Weighted.sampler_call ⟨1, 1, 1⟩ "missing"
        ⟨[("t1", ⟨⟨2, 2, 2⟩, [1, 1, 1, 1, 1, 1, 1, 1]⟩)]⟩ 5 [1/2] =
      (Except.error Weighted.SamplerError.keyError, [1/2])) ∧
    (Weighted.sampler_call ⟨1, 1, 1⟩ "t1"
        ⟨[("t1", ⟨⟨2, 2, 2⟩, [1, -1, 1, 1, 1, 1, 1, 1]⟩)]⟩ 5 [1/2] =
      (Except.error Weighted.SamplerError.valueError, [1/2])) :=
  ⟨(weighted_call_fail_fast ⟨3, 1, 1⟩ "t1" _ 5 [1/2] (by decide)).1 (by decide),
    (weighted_call_fail_fast ⟨1, 1, 1⟩ "missing" _ 5 [1/2] (by decide)).2.1
      (by decide) (by decide),
    (weighted_call_fail_fast ⟨1, 1, 1⟩ "t1" _ 5 [1/2] (by decide)).2.2
      ⟨⟨2, 2, 2⟩, [1, -1, 1, 1, 1, 1, 1, 1]⟩ (by decide) (by decide)
      ⟨-1, by decide, by norm_num⟩⟩

/-- **C2.** For every non-negative probability map with positive total
mass and every uniform draw `u ∈ [0,1)`, the center chosen by
inverse-transform sampling (first cumulative-sum entry exceeding `u`, or
the last sorted position when `u` exceeds the maximum cumulative value,
mapped back through the sorting permutation) is a voxel whose flat index
is in range and whose (border-cleared) probability value is strictly
positive; a voxel with value 0 is never the sampled center. -/
theorem weighted_zero_probability_exclusion
    (s : Shape3) (pmap : List ℚ) (u : ℚ)
    (hlen : pmap.length = s.volume)
    (hnn : ∀ x ∈ pmap, 0 ≤ x) (hsum : 0 < pmap.sum)
    (hu0 : 0 ≤ u) (hu1 : u < 1) :
    flatIndex s (Weighted.sample_probability_map s pmap u).1
        (Weighted.sample_probability_map s pmap u).2.1
        (Weighted.sample_probability_map s pmap u).2.2 < s.volume ∧
    0 < pmap.getD (flatIndex s (Weighted.sample_probability_map s pmap u).1
        (Weighted.sample_probability_map s pmap u).2.1
        (Weighted.sample_probability_map s pmap u).2.2) 0 := by
  have h := Weighted.sampled_value_pos pmap u hsum hu0 hu1
  rw [Weighted.sample_probability_map, flatIndex_unravel]
  exact ⟨hlen ▸ h.1, h.2⟩

/-- Witness for C2 at the probability map of the source docstring,
`[0, 0, 1, 2, 5, 1, 1, 0]` seen as a `(2, 2, 2)` volume, with `u = 1/3`. -/
theorem weighted_zero_probability_exclusion_witness :
    flatIndex ⟨2, 2, 2⟩
        (Weighted.sample_probability_map ⟨2, 2, 2⟩ [0, 0, 1, 2, 5, 1, 1, 0] (1/3)).1
        (Weighted.sample_probability_map ⟨2, 2, 2⟩ [0, 0, 1, 2, 5, 1, 1, 0] (1/3)).2.1
        (Weighted.sample_probability_map ⟨2, 2, 2⟩ [0, 0, 1, 2, 5, 1, 1, 0] (1/3)).2.2
      < Shape3.volume ⟨2, 2, 2⟩ ∧
    0 < ([0, 0, 1, 2, 5, 1, 1, 0] : List ℚ).getD
      (flatIndex ⟨2, 2, 2⟩
        (Weighted.sample_probability_map ⟨2, 2, 2⟩ [0, 0, 1, 2, 5, 1, 1, 0] (1/3)).1
        (Weighted.sample_probability_map ⟨2, 2, 2⟩ [0, 0, 1, 2, 5, 1, 1, 0] (1/3)).2.1
        (Weighted.sample_probability_map ⟨2, 2, 2⟩ [0, 0, 1, 2, 5, 1, 1, 0] (1/3)).2.2) 0 :=
  weighted_zero_probability_exclusion ⟨2, 2, 2⟩ [0, 0, 1, 2, 5, 1, 1, 0] (1/3)
    (by decide) (by decide) (by norm_num) (by norm_num) (by norm_num)

/-- The normalized, border-cleared map of the C1 witness configuration:
shape `(3,1,1)`, patch size `(2,1,1)`, raw map `[0, 1, 1]`. -/
theorem weighted_witness_process :
    Weighted.process_probability_map ⟨3, 1, 1⟩ ⟨2, 1, 1⟩ [0, 1, 1] =
      some [0, 1/2, 1/2] := by
  norm_num [Weighted.process_probability_map, Weighted.clear_probability_borders,
    Weighted.ClearedAt, unravel, show List.range 3 = [0, 1, 2] from by decide]

/-- **C4 counterexample.** The raw map `[1, 0, 0]` on shape `(3, 1, 1)`
with patch size `(2, 1, 1)` has all its mass on the border: after border
clearing the total mass is exactly zero while the non-cleared region
(voxels `(1,0,0)` and `(2,0,0)`) is non-empty, yet
`process_probability_map` fails (the `assert data.sum() > 0` fires,
modelled as `none`) instead of replacing the map with a uniform
distribution, so sampling does not proceed successfully. -/
theorem weighted_uniform_fallback_counterexample :
    (¬ Weighted.ClearedAt ⟨3, 1, 1⟩ ⟨2, 1, 1⟩ 1 0 0) ∧
    (¬ Weighted.ClearedAt ⟨3, 1, 1⟩ ⟨2, 1, 1⟩ 2 0 0) ∧
    (Weighted.clear_probability_borders ⟨3, 1, 1⟩ ⟨2, 1, 1⟩ [1, 0, 0]).sum = 0 ∧
    Weighted.process_probability_map ⟨3, 1, 1⟩ ⟨2, 1, 1⟩ [1, 0, 0] = none := by
  refine ⟨by decide, by decide, ?_, ?_⟩ <;>
    norm_num [Weighted.process_probability_map, Weighted.clear_probability_borders,
      Weighted.ClearedAt, unravel, show List.range 3 = [0, 1, 2] from by decide]

theorem list_all_zero_of_sum_zero (l : List ℚ) (hnn : ∀ x ∈ l, 0 ≤ x)
    (hz : l.sum = 0) : ∀ x ∈ l, x = 0 := by
  induction l with
  | nil => simp
  | cons x xs ih =>
    have hx : 0 ≤ x := hnn x (by simp)
    have hxs : 0 ≤ xs.sum := List.sum_nonneg fun y hy => hnn y (by simp [hy])
    rw [List.sum_cons] at hz
    intro y hy
    rcases List.mem_cons.1 hy with rfl | hmem
    · linarith
    · exact ih (fun z hz' => hnn z (by simp [hz'])) (by linarith) y hmem

theorem sum_pos_of_mem_pos (l : List ℚ) (hnn : ∀ x ∈ l, 0 ≤ x)
    (x : ℚ) (hx : x ∈ l) (hpos : 0 < x) : 0 < l.sum := by
  induction l with
  | nil => simp at hx
  | cons y ys ih =>
    rw [List.sum_cons]
    have hys : 0 ≤ ys.sum := List.sum_nonneg fun z hz => hnn z (by simp [hz])
    rcases List.mem_cons.1 hx with rfl | hmem
    · linarith
    · have := ih (fun z hz => hnn z (by simp [hz])) hmem
      have hy : 0 ≤ y := hnn y (by simp)
      linarith

/-- **C4 (amended).** The uniform fallback of
`WeightedSampler.process_probability_map` triggers on the condition
`data.sum() == 0` evaluated *before* border clearing, not after: a raw
map of total mass zero (hence, being non-negative, identically zero) is
replaced by the constant map, normalized to `1 / volume`, and then
cleared, so processing succeeds with a map that is uniform over the
non-cleared region and zero on the cleared borders — provided some voxel
survives clearing.  (When clearing alone removes all mass, processing
instead fails; see the counterexample.) -/
theorem weighted_uniform_fallback_amended (s ps : Shape3) (dat : List ℚ)
    (hlen : dat.length = s.volume)
    (hnn : ∀ x ∈ dat, 0 ≤ x) (hzero : dat.sum = 0)
    (m : ℕ) (hm : m < s.volume)
    (hclear : ¬ Weighted.ClearedAt s ps (unravel s m).1 (unravel s m).2.1 (unravel s m).2.2) :
    ∃ pm, Weighted.process_probability_map s ps dat = some pm ∧
      ∀ n, n < s.volume →
        pm.getD n 0 =
          if Weighted.ClearedAt s ps (unravel s n).1 (unravel s n).2.1 (unravel s n).2.2
          then 0 else 1 / (s.volume : ℚ) := by
  have hall : ∀ x ∈ dat, x = 0 := list_all_zero_of_sum_zero dat hnn hzero
  have hvolpos : 0 < s.volume := by omega
  -- the incremented map is constant 1, its sum is the volume
  have hd1 : dat.map (· + 1) = List.replicate s.volume 1 := by
    apply List.ext_getElem
    · simp [hlen]
    · intro n h1 h2
      rw [List.getElem_map]
      rw [List.getElem_replicate]
      have hdn : ∀ x ∈ dat, x + 1 = 1 := by
        intro x hx
        rw [hall x hx, zero_add]
      exact hdn _ (List.getElem_mem _)
  have hd1sum : (dat.map (· + 1)).sum = (s.volume : ℚ) := by
    rw [hd1]
    simp [List.sum_replicate, nsmul_eq_mul]
  have hd2 : (dat.map (· + 1)).map (· / (dat.map (· + 1)).sum) =
      List.replicate s.volume (1 / (s.volume : ℚ)) := by
    rw [hd1sum, hd1]
    apply List.ext_getElem
    · simp
    · intro n h1 h2
      rw [List.getElem_map, List.getElem_replicate, List.getElem_replicate]
  have hd2len : ((dat.map (· + 1)).map (· / (dat.map (· + 1)).sum)).length = s.volume := by
    rw [hd2, List.length_replicate]
  have hd2get : ∀ n, n < s.volume →
      ((dat.map (· + 1)).map (· / (dat.map (· + 1)).sum)).getD n 0 = 1 / (s.volume : ℚ) := by
    intro n hn
    rw [hd2, List.getD_eq_getElem _ 0 (by simpa using hn), List.getElem_replicate]
  -- the cleared map is uniform over the non-cleared region
  have hd3get : ∀ n, n < s.volume →
      (Weighted.clear_probability_borders s ps
        ((dat.map (· + 1)).map (· / (dat.map (· + 1)).sum))).getD n 0 =
        if Weighted.ClearedAt s ps (unravel s n).1 (unravel s n).2.1 (unravel s n).2.2
        then 0 else 1 / (s.volume : ℚ) := by
    intro n hn
    rw [Weighted.clear_getD s ps _ n (by rw [hd2len]; exact hn)]
    split_ifs with h
    · rfl
    · exact hd2get n hn
  have hd3sumpos : 0 <
      (Weighted.clear_probability_borders s ps
        ((dat.map (· + 1)).map (· / (dat.map (· + 1)).sum))).sum := by
    have hlen3 : (Weighted.clear_probability_borders s ps
        ((dat.map (· + 1)).map (· / (dat.map (· + 1)).sum))).length = s.volume := by
      rw [Weighted.clear_length, hd2len]
    have hmempos : (0:ℚ) <
        (Weighted.clear_probability_borders s ps
          ((dat.map (· + 1)).map (· / (dat.map (· + 1)).sum))).getD m 0 := by
      rw [hd3get m hm, if_neg hclear]
      positivity
    refine sum_pos_of_mem_pos _ ?_ _ ?_ hmempos
    · intro x hxmem
      obtain ⟨n, hn, rfl⟩ := List.getElem_of_mem hxmem
      rw [← List.getD_eq_getElem _ 0 hn]
      rw [hd3get n (by rw [← hlen3]; exact hn)]
      split_ifs
      · exact le_refl 0
      · positivity
    · rw [List.getD_eq_getElem _ 0 (by rw [hlen3]; exact hm)]
      exact List.getElem_mem _
  refine ⟨_, ?_, hd3get⟩
  simp only [Weighted.process_probability_map, if_pos hzero]
  rw [if_pos hd3sumpos]

/-- Witness for the amended C4: the all-zero raw map on shape `(3,1,1)`
with patch size `(2,1,1)`; voxel `(1,0,0)` survives clearing. -/
theorem weighted_uniform_fallback_amended_witness :
    ∃ pm, Weighted.process_probability_map ⟨3, 1, 1⟩ ⟨2, 1, 1⟩ [0, 0, 0] = some pm ∧
      ∀ n, n < Shape3.volume ⟨3, 1, 1⟩ →
        pm.getD n 0 =
          if Weighted.ClearedAt ⟨3, 1, 1⟩ ⟨2, 1, 1⟩ (unravel ⟨3, 1, 1⟩ n).1
              (unravel ⟨3, 1, 1⟩ n).2.1 (unravel ⟨3, 1, 1⟩ n).2.2
          then 0 else 1 / (Shape3.volume ⟨3, 1, 1⟩ : ℚ) :=
  weighted_uniform_fallback_amended ⟨3, 1, 1⟩ ⟨2, 1, 1⟩ [0, 0, 0]
    (by decide) (by decide) (by norm_num) 1 (by decide) (by decide)

/-- **C1.** For every valid patch size (each component positive and at
most the corresponding spatial dimension) and every probability map the
sampler accepts, every sampled `index_ini` satisfies `index_ini ≥ 0` and
`index_ini + patch_size ≤ spatial_shape` on every axis, for every draw
`u ∈ [0,1)`: the border clearing of `patch_size // 2` near-border and
`(patch_size - 1) // 2` far-border voxels guarantees this under the
center convention `center = s // 2`. -/
theorem weighted_patch_bounds
    (s ps : Shape3) (dat pmap : List ℚ) (u : ℚ)
    (hpi : 1 ≤ ps.i ∧ ps.i ≤ s.i) (hpj : 1 ≤ ps.j ∧ ps.j ≤ s.j)
    (hpk : 1 ≤ ps.k ∧ ps.k ≤ s.k)
    (hlen : dat.length = s.volume)
    (hproc : Weighted.process_probability_map s ps dat = some pmap)
    (hu0 : 0 ≤ u) (hu1 : u < 1) :
    0 ≤ (Weighted.get_random_index_ini s ps pmap u).1 ∧
    (Weighted.get_random_index_ini s ps pmap u).1 + ps.i ≤ s.i ∧
    0 ≤ (Weighted.get_random_index_ini s ps pmap u).2.1 ∧
    (Weighted.get_random_index_ini s ps pmap u).2.1 + ps.j ≤ s.j ∧
    0 ≤ (Weighted.get_random_index_ini s ps pmap u).2.2 ∧
    (Weighted.get_random_index_ini s ps pmap u).2.2 + ps.k ≤ s.k := by
  obtain ⟨hmap, hsum⟩ := Weighted.process_probability_map_eq s ps dat pmap hproc
  have hplen : pmap.length = s.volume := by
    rw [Weighted.process_probability_map_length s ps dat pmap hproc, hlen]
  obtain ⟨hflt, hfpos⟩ := Weighted.sampled_value_pos pmap u hsum hu0 hu1
  have hvol : Weighted.sampled_flat_index pmap u < s.volume := hplen ▸ hflt
  obtain ⟨ha, hb, hc⟩ := unravel_lt s (Weighted.sampled_flat_index pmap u) hvol
  have hcleared :
      ¬ Weighted.ClearedAt s ps (unravel s (Weighted.sampled_flat_index pmap u)).1
        (unravel s (Weighted.sampled_flat_index pmap u)).2.1
        (unravel s (Weighted.sampled_flat_index pmap u)).2.2 := by
    intro hcl
    have hval := Weighted.clear_getD' s ps _ pmap hmap
      (Weighted.sampled_flat_index pmap u) (by
        rw [List.length_map]
        have := Weighted.process_probability_map_length s ps dat pmap hproc
        rw [hmap, Weighted.clear_length, List.length_map] at this
        omega)
    rw [hval, if_pos hcl] at hfpos
    exact lt_irrefl 0 hfpos
  rw [Weighted.ClearedAt] at hcleared
  push_neg at hcleared
  obtain ⟨h1, h2, h3, h4, h5, h6⟩ := hcleared
  have hbi : (unravel s (Weighted.sampled_flat_index pmap u)).1 + (ps.i - 1) / 2 < s.i := by
    rcases Nat.eq_zero_or_pos ((ps.i - 1) / 2) with hz | hp
    · omega
    · have := h4 (by omega)
      omega
  have hbj : (unravel s (Weighted.sampled_flat_index pmap u)).2.1 + (ps.j - 1) / 2 < s.j := by
    rcases Nat.eq_zero_or_pos ((ps.j - 1) / 2) with hz | hp
    · omega
    · have := h5 (by omega)
      omega
  have hbk : (unravel s (Weighted.sampled_flat_index pmap u)).2.2 + (ps.k - 1) / 2 < s.k := by
    rcases Nat.eq_zero_or_pos ((ps.k - 1) / 2) with hz | hp
    · omega
    · have := h6 (by omega)
      omega
  rw [Weighted.get_random_index_ini, Weighted.sample_probability_map]
  dsimp only
  refine ⟨?_, ?_, ?_, ?_, ?_, ?_⟩ <;> omega

/-- Witness for C1: shape `(3,1,1)`, patch size `(2,1,1)`, raw map
`[0, 1, 1]`, draw `u = 0`. -/
theorem weighted_patch_bounds_witness :
    0 ≤ (Weighted.get_random_index_ini ⟨3, 1, 1⟩ ⟨2, 1, 1⟩ [0, 1/2, 1/2] 0).1 ∧
    (Weighted.get_random_index_ini ⟨3, 1, 1⟩ ⟨2, 1, 1⟩ [0, 1/2, 1/2] 0).1 + (2:ℕ) ≤ (3:ℕ) ∧
    0 ≤ (Weighted.get_random_index_ini ⟨3, 1, 1⟩ ⟨2, 1, 1⟩ [0, 1/2, 1/2] 0).2.1 ∧
    (Weighted.get_random_index_ini ⟨3, 1, 1⟩ ⟨2, 1, 1⟩ [0, 1/2, 1/2] 0).2.1 + (1:ℕ) ≤ (1:ℕ) ∧
    0 ≤ (Weighted.get_random_index_ini ⟨3, 1, 1⟩ ⟨2, 1, 1⟩ [0, 1/2, 1/2] 0).2.2 ∧
    (Weighted.get_random_index_ini ⟨3, 1, 1⟩ ⟨2, 1, 1⟩ [0, 1/2, 1/2] 0).2.2 + (1:ℕ) ≤ (1:ℕ) :=
  weighted_patch_bounds ⟨3, 1, 1⟩ ⟨2, 1, 1⟩ [0, 1, 1] [0, 1/2, 1/2] 0
    (by decide) (by decide) (by decide) (by decide)
    weighted_witness_process (by norm_num) (by norm_num)

namespace Motion

/-! ### Current `RandomMotion` / `Motion`
(src/torchio/transforms/augmentation/intensity/random_motion.py) -/

/-- Component `c` of a parameter triple (a row of the
`(num_transforms, 3)` arrays of `RandomMotion.get_params`). -/
def comp3 (v : ℚ × ℚ × ℚ) (c : Fin 3) : ℚ :=
  if c = 0 then v.1 else if c = 1 then v.2.1 else v.2.2

/-- The 2D special case of `RandomMotion.get_params`:
`degrees_params[:, :-1] = 0` (zero all rotation components but the last)
and `translation_params[:, 2] = 0` (zero the last translation
component), applied to the drawn parameter rows. -/
def zero_params_2d (degrees translation : List (ℚ × ℚ × ℚ)) :
    List (ℚ × ℚ × ℚ) × List (ℚ × ℚ × ℚ) :=
  (degrees.map fun d => (0, 0, d.2.2),
    translation.map fun t => (t.1, t.2.1, 0))

/-- `RandomMotion.__init__` validation:
`num_transforms < 1` raises `ValueError`, else the value is kept. -/
def random_motion_init_num_transforms (num_transforms : ℤ) : Except String ℤ :=
  if num_transforms < 1 then
    Except.error "Number of transforms must be a strictly positive natural number"
  else Except.ok num_transforms

/-- Python's simultaneous swap
`l[a], l[b] = l[b], l[a]` (unchanged when an index is out of range). -/
def list_swap {α : Type} (l : List α) (a b : ℕ) : List α :=
  match l.get? a, l.get? b with
  | some x, some y => (l.set a y).set b x
  | _, _ => l

/-- `Motion.sort_spectra`: swap into position 0 the spectrum at the
index of the first time value exceeding 0.5
(`np.where(times > 0.5)[0].min()`), or the last spectrum when no time
exceeds 0.5. -/
def sort_spectra {α : Type} (spectra : List α) (times : List ℚ) : List α :=
  let index := if times.any fun t => decide ((1:ℚ)/2 < t)
    then times.findIdx fun t => decide ((1:ℚ)/2 < t)
    else spectra.length - 1
  list_swap spectra 0 index

/-- Segment boundaries of `Motion.add_artifact`:
`indices = (last_index * times).astype(int)` followed by the appended
final boundary `last_index` (truncation toward zero equals `⌊·⌋` for the
non-negative times). -/
def segment_boundaries (times : List ℚ) (axis_length : ℕ) : List ℕ :=
  (times.map fun t => (⌊t * (axis_length : ℚ)⌋).toNat) ++ [axis_length]

/-- Start of segment `k`: `ini = 0` initially, then the previous `fin`. -/
def segment_start (b : List ℕ) (k : ℕ) : ℕ :=
  if k = 0 then 0 else b.getD (k - 1) 0

end Motion

namespace LegacyMotion

/-! ### Legacy `RandomMotion` (torchio/transforms/random_motion.py) -/

/-- Legacy `RandomMotion.get_rigid_transforms` at the 4×4-matrix level:
each delta is left-composed onto the previous pose
(`new_matrix = delta_matrix @ previous_matrix`). -/
def accumulate_poses (prev : Matrix (Fin 4) (Fin 4) ℚ) :
    List (Matrix (Fin 4) (Fin 4) ℚ) → List (Matrix (Fin 4) (Fin 4) ℚ)
  | [] => []
  | dm :: rest => (dm * prev) :: accumulate_poses (dm * prev) rest

/-- The legacy pose list: the identity followed by the accumulated
products of the deltas. -/
def get_rigid_transform_matrices (deltas : List (Matrix (Fin 4) (Fin 4) ℚ)) :
    List (Matrix (Fin 4) (Fin 4) ℚ) :=
  1 :: accumulate_poses 1 deltas

/-- Chunked spectral compositing of the legacy
`RandomMotion.add_artifact`: `chunk_size = result.shape[2] // len(images)`
and chunk `i` of the last axis is copied from spectrum `i`; a cell never
written keeps the `np.empty_like` buffer contents `init`. -/
def add_artifact_chunks {α : Type} (spectra : List (ℕ → α)) (init : ℕ → α)
    (L : ℕ) : ℕ → α :=
  let cs := L / spectra.length
  (List.range spectra.length).foldl
    (fun acc i => fun j =>
      if i * cs ≤ j ∧ j < (i + 1) * cs then (spectra.getD i init) j else acc j)
    init

theorem chunk_foldl_out {α : Type} (g : ℕ → ℕ → α) (cs : ℕ) (is : List ℕ)
    (init : ℕ → α) (j : ℕ)
    (h : ∀ i ∈ is, ¬ (i * cs ≤ j ∧ j < (i + 1) * cs)) :
    (is.foldl
      (fun acc i => fun j' =>
        if i * cs ≤ j' ∧ j' < (i + 1) * cs then g i j' else acc j')
      init) j = init j := by
  induction is generalizing init with
  | nil => rfl
  | cons i rest ih =>
    rw [List.foldl_cons, ih _ fun x hx => h x (by simp [hx])]
    rw [if_neg (h i (by simp))]

end LegacyMotion

/-- **C5 counterexample.** At the concrete 2D draw with rotation row
`(1, 2, 3)` and translation row `(4, 5, 6)`, `get_params` produces the
translation row `(4, 5, 0)`: two translation components survive, so no
single choice of a surviving ("through-plane") translation component
makes every other translation component zero, for any choice of the
surviving rotation component. -/
theorem motion_2d_zeroing_counterexample :
    ¬ ∃ r t : Fin 3,
      (∀ v ∈ (Motion.zero_params_2d [(1, 2, 3)] [(4, 5, 6)]).1,
        ∀ c, c ≠ r → Motion.comp3 v c = 0) ∧
      (∀ v ∈ (Motion.zero_params_2d [(1, 2, 3)] [(4, 5, 6)]).2,
        ∀ c, c ≠ t → Motion.comp3 v c = 0) := by
  decide

/-- **C5 (amended).** For 2D inputs, `RandomMotion.get_params` zeroes
the first two rotation components of every drawn row (only rotation
about the third axis survives) and zeroes the third translation
component of every drawn row (translation survives along the first two
axes); the surviving components keep their drawn values. -/
theorem motion_2d_zeroing_amended (degrees translation : List (ℚ × ℚ × ℚ))
    (n : ℕ) (hn : n < degrees.length) (m : ℕ) (hm : m < translation.length) :
    ((Motion.zero_params_2d degrees translation).1.getD n (0, 0, 0)).1 = 0 ∧
    ((Motion.zero_params_2d degrees translation).1.getD n (0, 0, 0)).2.1 = 0 ∧
    ((Motion.zero_params_2d degrees translation).1.getD n (0, 0, 0)).2.2 =
      (degrees.getD n (0, 0, 0)).2.2 ∧
    ((Motion.zero_params_2d degrees translation).2.getD m (0, 0, 0)).1 =
      (translation.getD m (0, 0, 0)).1 ∧
    ((Motion.zero_params_2d degrees translation).2.getD m (0, 0, 0)).2.1 =
      (translation.getD m (0, 0, 0)).2.1 ∧
    ((Motion.zero_params_2d degrees translation).2.getD m (0, 0, 0)).2.2 = 0 := by
  have h1 : (List.map (fun d : ℚ × ℚ × ℚ => ((0:ℚ), (0:ℚ), d.2.2)) degrees).getD n
      (0, 0, 0) = ((0:ℚ), (0:ℚ), (degrees.getD n (0, 0, 0)).2.2) := by
    rw [List.getD_eq_getElem _ _ (by simpa using hn), List.getElem_map,
      List.getD_eq_getElem _ _ hn]
  have h2 : (List.map (fun t : ℚ × ℚ × ℚ => (t.1, t.2.1, (0:ℚ))) translation).getD m
      (0, 0, 0) = ((translation.getD m (0, 0, 0)).1,
        (translation.getD m (0, 0, 0)).2.1, (0:ℚ)) := by
    rw [List.getD_eq_getElem _ _ (by simpa using hm), List.getElem_map,
      List.getD_eq_getElem _ _ hm]
  rw [Motion.zero_params_2d]
  simp only
  rw [h1, h2]
  exact ⟨rfl, rfl, rfl, rfl, rfl, rfl⟩

/-- Witness for the amended C5 at the rows `(1, 2, 3)` and `(4, 5, 6)`. -/
theorem motion_2d_zeroing_amended_witness :
    ((Motion.zero_params_2d [(1, 2, 3)] [(4, 5, 6)]).1.getD 0 (0, 0, 0)).1 = 0 ∧
    ((Motion.zero_params_2d [(1, 2, 3)] [(4, 5, 6)]).1.getD 0 (0, 0, 0)).2.1 = 0 ∧
    ((Motion.zero_params_2d [(1, 2, 3)] [(4, 5, 6)]).1.getD 0 (0, 0, 0)).2.2 =
      (([(1, 2, 3)] : List (ℚ × ℚ × ℚ)).getD 0 (0, 0, 0)).2.2 ∧
    ((Motion.zero_params_2d [(1, 2, 3)] [(4, 5, 6)]).2.getD 0 (0, 0, 0)).1 =
      (([(4, 5, 6)] : List (ℚ × ℚ × ℚ)).getD 0 (0, 0, 0)).1 ∧
    ((Motion.zero_params_2d [(1, 2, 3)] [(4, 5, 6)]).2.getD 0 (0, 0, 0)).2.1 =
      (([(4, 5, 6)] : List (ℚ × ℚ × ℚ)).getD 0 (0, 0, 0)).2.1 ∧
    ((Motion.zero_params_2d [(1, 2, 3)] [(4, 5, 6)]).2.getD 0 (0, 0, 0)).2.2 = 0 :=
  motion_2d_zeroing_amended [(1, 2, 3)] [(4, 5, 6)] 0 (by decide) 0 (by decide)

theorem list_swap_length {α : Type} (l : List α) (a b : ℕ) :
    (Motion.list_swap l a b).length = l.length := by
  rw [Motion.list_swap]
  rcases h1 : l.get? a with - | x <;> rcases h2 : l.get? b with - | y <;> simp

theorem list_swap_getD {α : Type} (l : List α) (a b : ℕ) (d : α)
    (ha : a < l.length) (hb : b < l.length) (m : ℕ) :
    (Motion.list_swap l a b).getD m d =
      if m = b then l.getD a d
      else if m = a then l.getD b d
      else l.getD m d := by
  have hx : l.get? a = some (l.get ⟨a, ha⟩) := by
    rw [List.get?_eq_getElem?, List.getElem?_eq_getElem ha, List.get_eq_getElem]
  have hy : l.get? b = some (l.get ⟨b, hb⟩) := by
    rw [List.get?_eq_getElem?, List.getElem?_eq_getElem hb, List.get_eq_getElem]
  rw [Motion.list_swap, hx, hy]
  simp only [List.get_eq_getElem]
  by_cases hm : m < l.length
  · rw [List.getD_eq_getElem _ d (by simpa using hm)]
    rw [List.getElem_set, List.getElem_set]
    by_cases hmb : m = b
    · rw [if_pos hmb.symm, if_pos hmb, List.getD_eq_getElem _ d ha]
    · rw [if_neg (fun h => hmb h.symm), if_neg hmb]
      by_cases hma : m = a
      · rw [if_pos hma.symm, if_pos hma, List.getD_eq_getElem _ d hb]
      · rw [if_neg (fun h => hma h.symm), if_neg hma, List.getD_eq_getElem _ d hm]
  · rw [List.getD_eq_default _ d (by simpa using Nat.le_of_not_lt hm)]
    rw [if_neg (by omega), if_neg (by omega), List.getD_eq_default _ d (by omega)]

/-- **C6.** In `Motion.sort_spectra`, when some time value exceeds 0.5
the spectrum at the index of the first such time is swapped into
position 0 (position 0's spectrum moves to that index, all other
positions unchanged); when no time exceeds 0.5, the last spectrum is
swapped into position 0. -/
theorem motion_sort_spectra_swap {α : Type} (spectra : List α) (times : List ℚ)
    (d : α) (hlen : spectra.length = times.length + 1) :
    ((∃ i, i < times.length ∧ 1/2 < times.getD i 0) →
      (Motion.sort_spectra spectra times).getD 0 d =
        spectra.getD (times.findIdx fun t => decide ((1:ℚ)/2 < t)) d ∧
      (Motion.sort_spectra spectra times).getD
          (times.findIdx fun t => decide ((1:ℚ)/2 < t)) d = spectra.getD 0 d ∧
      ∀ m, m ≠ 0 → m ≠ (times.findIdx fun t => decide ((1:ℚ)/2 < t)) →
        (Motion.sort_spectra spectra times).getD m d = spectra.getD m d) ∧
    ((∀ i, i < times.length → times.getD i 0 ≤ 1/2) →
      (Motion.sort_spectra spectra times).getD 0 d =
        spectra.getD (spectra.length - 1) d ∧
      (Motion.sort_spectra spectra times).getD (spectra.length - 1) d =
        spectra.getD 0 d ∧
      ∀ m, m ≠ 0 → m ≠ spectra.length - 1 →
        (Motion.sort_spectra spectra times).getD m d = spectra.getD m d) := by
  have hslen : 0 < spectra.length := by omega
  constructor
  · rintro ⟨i, hi, hgt⟩
    have hany : (times.any fun t => decide ((1:ℚ)/2 < t)) = true := by
      refine List.any_eq_true.2 ⟨times.getD i 0, ?_, by simpa using hgt⟩
      rw [List.getD_eq_getElem _ 0 hi]
      exact List.getElem_mem _
    have hfidx : (times.findIdx fun t => decide ((1:ℚ)/2 < t)) < times.length :=
      List.findIdx_lt_length_of_exists (List.any_eq_true.1 hany)
    have hswap : Motion.sort_spectra spectra times =
        Motion.list_swap spectra 0 (times.findIdx fun t => decide ((1:ℚ)/2 < t)) := by
      rw [Motion.sort_spectra]
      simp only [hany]
      rfl
    rw [hswap]
    refine ⟨?_, ?_, ?_⟩
    · rw [list_swap_getD spectra 0 _ d hslen (by omega) 0]
      by_cases h : (0 : ℕ) = times.findIdx fun t => decide ((1:ℚ)/2 < t)
      · rw [if_pos h, ← h]
      · rw [if_neg h, if_pos rfl]
    · rw [list_swap_getD spectra 0 _ d hslen (by omega) _, if_pos rfl]
    · intro m hm0 hmi
      rw [list_swap_getD spectra 0 _ d hslen (by omega) m,
        if_neg hmi, if_neg hm0]
  · intro hle
    have hany : (times.any fun t => decide ((1:ℚ)/2 < t)) = false := by
      rw [List.any_eq_false]
      intro x hxmem
      obtain ⟨i, hi, rfl⟩ := List.getElem_of_mem hxmem
      have := hle i hi
      rw [List.getD_eq_getElem _ 0 hi] at this
      simpa using not_lt.2 this
    have hswap : Motion.sort_spectra spectra times =
        Motion.list_swap spectra 0 (spectra.length - 1) := by
      rw [Motion.sort_spectra]
      simp only [hany]
      rfl
    rw [hswap]
    refine ⟨?_, ?_, ?_⟩
    · rw [list_swap_getD spectra 0 _ d hslen (by omega) 0]
      by_cases h : (0 : ℕ) = spectra.length - 1
      · rw [if_pos h, ← h]
      · rw [if_neg h, if_pos rfl]
    · rw [list_swap_getD spectra 0 _ d hslen (by omega) _, if_pos rfl]
    · intro m hm0 hmi
      rw [list_swap_getD spectra 0 _ d hslen (by omega) m,
        if_neg hmi, if_neg hm0]

/-- Witness for C6: spectra `[10, 20, 30]` and times `[3/10, 3/5]`; the
first time exceeding 0.5 is at index 1, so spectrum 20 moves to the
front. -/
theorem motion_sort_spectra_swap_witness :
    (Motion.sort_spectra ([10, 20, 30] : List ℚ) [3/10, 3/5]).getD 0 0 =
      ([10, 20, 30] : List ℚ).getD
        (List.findIdx (fun t => decide ((1:ℚ)/2 < t)) [3/10, 3/5]) 0 ∧
    (Motion.sort_spectra ([10, 20, 30] : List ℚ) [3/10, 3/5]).getD
        (List.findIdx (fun t => decide ((1:ℚ)/2 < t)) [3/10, 3/5]) 0 =
      ([10, 20, 30] : List ℚ).getD 0 0 ∧
    ∀ m, m ≠ 0 → m ≠ List.findIdx (fun t => decide ((1:ℚ)/2 < t)) [3/10, 3/5] →
      (Motion.sort_spectra ([10, 20, 30] : List ℚ) [3/10, 3/5]).getD m 0 =
        ([10, 20, 30] : List ℚ).getD m 0 :=
  (motion_sort_spectra_swap ([10, 20, 30] : List ℚ) [3/10, 3/5] 0 (by simp)).1
    ⟨1, by norm_num, by norm_num⟩

theorem segment_boundaries_length (times : List ℚ) (L : ℕ) :
    (Motion.segment_boundaries times L).length = times.length + 1 := by
  simp [Motion.segment_boundaries]

theorem segment_boundaries_getD_lt (times : List ℚ) (L : ℕ) (i : ℕ)
    (hi : i < times.length) :
    (Motion.segment_boundaries times L).getD i 0 =
      (⌊times.getD i 0 * (L : ℚ)⌋).toNat := by
  rw [Motion.segment_boundaries,
    List.getD_eq_getElem _ 0 (by simp; omega),
    List.getElem_append_left (by simpa using hi),
    List.getElem_map, List.getD_eq_getElem _ 0 hi]

theorem segment_boundaries_getD_last (times : List ℚ) (L : ℕ) :
    (Motion.segment_boundaries times L).getD times.length 0 = L := by
  rw [Motion.segment_boundaries,
    List.getD_eq_getElem _ 0 (by simp)]
  rw [List.getElem_append_right (by simp)]
  simp

/-- Every position below `L` lies in exactly one of the consecutive
half-open segments determined by a monotone boundary list ending at `L`. -/
theorem partition_of_monotone (b : List ℕ) (L : ℕ) (hne : b ≠ [])
    (hmono : ∀ i j, i ≤ j → j < b.length → b.getD i 0 ≤ b.getD j 0)
    (hlast : b.getD (b.length - 1) 0 = L)
    (j : ℕ) (hj : j < L) :
    ∃! k, k < b.length ∧ Motion.segment_start b k ≤ j ∧ j < b.getD k 0 := by
  have hblen : 0 < b.length := List.length_pos.2 hne
  have hex : ∃ k, k < b.length ∧ j < b.getD k 0 :=
    ⟨b.length - 1, by omega, by rw [hlast]; exact hj⟩
  refine ⟨Nat.find hex, ⟨(Nat.find_spec hex).1, ?_, (Nat.find_spec hex).2⟩, ?_⟩
  · rw [Motion.segment_start]
    split_ifs with h0
    · omega
    · have hmin := Nat.find_min hex (m := Nat.find hex - 1) (by omega)
      push_neg at hmin
      have := hmin (by have := (Nat.find_spec hex).1; omega)
      omega
  · intro k' hk'
    obtain ⟨hk'len, hk'start, hk'ub⟩ := hk'
    by_contra hne'
    rcases Nat.lt_or_ge k' (Nat.find hex) with hlt | hge
    · exact Nat.find_min hex hlt ⟨hk'len, hk'ub⟩
    · have hgt : Nat.find hex < k' := by omega
      rw [Motion.segment_start, if_neg (by omega)] at hk'start
      have hm := hmono (Nat.find hex) (k' - 1) (by omega) (by omega)
      have := (Nat.find_spec hex).2
      omega

/-- **C3.** For every ascending times array with values in `[0, 1)`, the
k-space segment boundaries `⌊time * axis_length⌋` followed by the final
boundary `axis_length` partition the axis exactly: every index
`j < axis_length` lies in exactly one of the consecutive half-open
segments, so each slice of the composited spectrum is taken from exactly
one source spectrum. -/
theorem motion_segment_partition (times : List ℚ) (L : ℕ)
    (hsorted : List.Sorted (· ≤ ·) times)
    (hrange : ∀ t ∈ times, 0 ≤ t ∧ t < 1)
    (j : ℕ) (hj : j < L) :
    ∃! k, k < (Motion.segment_boundaries times L).length ∧
      Motion.segment_start (Motion.segment_boundaries times L) k ≤ j ∧
      j < (Motion.segment_boundaries times L).getD k 0 := by
  have hLpos : 0 < L := by omega
  apply partition_of_monotone (Motion.segment_boundaries times L) L
  · intro h
    have := congrArg List.length h
    rw [segment_boundaries_length] at this
    simp at this
  · intro i i' hii' hi'
    rw [segment_boundaries_length] at hi'
    rcases Nat.lt_or_ge i' times.length with hi'lt | hi'ge
    · -- both inside the mapped boundaries
      rw [segment_boundaries_getD_lt times L i (by omega),
        segment_boundaries_getD_lt times L i' hi'lt]
      have hle : times.getD i 0 ≤ times.getD i' 0 := by
        rcases Nat.eq_or_lt_of_le hii' with rfl | hlt
        · exact le_refl _
        · rw [List.getD_eq_getElem _ 0 (by omega), List.getD_eq_getElem _ 0 hi'lt]
          exact hsorted.rel_get_of_lt (a := ⟨i, by omega⟩) (b := ⟨i', hi'lt⟩)
            (by simpa using hlt)
      have hfl : ⌊times.getD i 0 * (L : ℚ)⌋ ≤ ⌊times.getD i' 0 * (L : ℚ)⌋ :=
        Int.floor_le_floor (by
          apply mul_le_mul_of_nonneg_right hle
          positivity)
      exact Int.toNat_le_toNat hfl
    · -- the right index is the appended final boundary
      have hi'eq : i' = times.length := by omega
      subst hi'eq
      rw [segment_boundaries_getD_last]
      rcases Nat.eq_or_lt_of_le hii' with rfl | hilt
      · rw [segment_boundaries_getD_last]
      · rw [segment_boundaries_getD_lt times L i (by omega)]
        have hmem : times.getD i 0 ∈ times := by
          rw [List.getD_eq_getElem _ 0 (by omega)]
          exact List.getElem_mem _
        obtain ⟨ht0, ht1⟩ := hrange _ hmem
        have : times.getD i 0 * (L : ℚ) ≤ (L : ℚ) := by nlinarith
        have hfl : ⌊times.getD i 0 * (L : ℚ)⌋ ≤ (L : ℤ) := by
          calc ⌊times.getD i 0 * (L : ℚ)⌋ ≤ ⌊((L : ℕ) : ℚ)⌋ := Int.floor_le_floor this
            _ = (L : ℤ) := by rw [Int.floor_natCast]
        exact Int.toNat_le.2 hfl
  · rw [segment_boundaries_length]
    simp only [Nat.add_sub_cancel]
    exact segment_boundaries_getD_last times L
  · exact hj

/-- Witness for C3: times `[1/4, 2/3]`, axis length 4, position `j = 2`
(the boundaries are `[1, 2, 4]`). -/
theorem motion_segment_partition_witness :
    ∃! k, k < (Motion.segment_boundaries [1/4, 2/3] 4).length ∧
      Motion.segment_start (Motion.segment_boundaries [1/4, 2/3] 4) k ≤ 2 ∧
      2 < (Motion.segment_boundaries [1/4, 2/3] 4).getD k 0 :=
  motion_segment_partition [1/4, 2/3] 4
    (by norm_num [List.sorted_cons])
    (by
      intro t ht
      simp only [List.mem_cons, List.not_mem_nil, or_false] at ht
      rcases ht with rfl | rfl <;> norm_num)
    2 (by norm_num)

/-- **C8 counterexample.** The current `RandomMotion.__init__` rejects
`num_transforms = 0` with a `ValueError` (`num_transforms < 1`), so in
the current variant no pose list is ever built for zero transforms and
the identity case of the claim is unreachable. -/
theorem motion_identity_counterexample :
    Motion.random_motion_init_num_transforms 0 =
      Except.error "Number of transforms must be a strictly positive natural number" :=
  rfl

/-- **C8 (amended).** The current `RandomMotion` rejects
`num_transforms = 0` at construction (see the counterexample); in the
legacy variant, zero movements produce the pose list `[identity]` alone,
and the chunked compositing with the single resulting spectrum copies it
over the whole axis (`chunk_size = axis_length // 1`), so the composited
k-space equals the unmodified input spectrum and the reconstruction
inverts an unmodified spectrum. -/
theorem motion_identity_amended {α : Type} (spec init : ℕ → α) (L j : ℕ)
    (hj : j < L) :
    LegacyMotion.get_rigid_transform_matrices [] = [1] ∧
    LegacyMotion.add_artifact_chunks [spec] init L j = spec j := by
  refine ⟨rfl, ?_⟩
  rw [LegacyMotion.add_artifact_chunks]
  simp only [List.length_cons, List.length_nil, Nat.zero_add, Nat.div_one,
    show List.range 1 = [0] from rfl, List.foldl_cons, List.foldl_nil]
  rw [if_pos ⟨by omega, by omega⟩]
  rfl

/-- Witness for the amended C8: the constant spectrum `fun n => n + 7`
over an axis of length 5, at position 3. -/
theorem motion_identity_amended_witness :
    LegacyMotion.get_rigid_transform_matrices [] = [1] ∧
    LegacyMotion.add_artifact_chunks [fun n => n + 7] (fun _ => 0) 5 3 =
      (fun n => n + 7) 3 :=
  motion_identity_amended (fun n => n + 7) (fun _ => 0) 5 3 (by norm_num)

/-- **C10.** In the legacy `add_artifact`, the composited spectrum is
filled in `num_transforms + 1` equal chunks of size
`chunk_size = axis_length // (num_transforms + 1)` along the last axis;
whenever the axis length is not a multiple of the number of spectra, the
indices at or beyond `chunk_size * (num_transforms + 1)` are never
assigned — they keep the uninitialized `np.empty_like` buffer contents —
and such indices exist below `axis_length`, so the legacy variant does
not cover the whole axis. -/
theorem legacy_chunk_tail_unassigned {α : Type} (spectra : List (ℕ → α))
    (init : ℕ → α) (L : ℕ) (hne : spectra ≠ [])
    (hndvd : ¬ spectra.length ∣ L) :
    spectra.length * (L / spectra.length) < L ∧
    ∀ j, spectra.length * (L / spectra.length) ≤ j →
      LegacyMotion.add_artifact_chunks spectra init L j = init j := by
  have hn : 0 < spectra.length := List.length_pos.2 hne
  constructor
  · rcases Nat.lt_or_ge (spectra.length * (L / spectra.length)) L with h | h
    · exact h
    · exfalso
      have hle : spectra.length * (L / spectra.length) ≤ L := by
        rw [Nat.mul_comm]
        exact Nat.div_mul_le_self L _
      exact hndvd ⟨L / spectra.length, (le_antisymm hle h).symm⟩
  · intro j hjge
    rw [LegacyMotion.add_artifact_chunks]
    refine LegacyMotion.chunk_foldl_out (fun i => spectra.getD i init)
      (L / spectra.length) (List.range spectra.length) init j ?_
    intro i hi
    have hi' : i < spectra.length := List.mem_range.1 hi
    rintro ⟨h1, h2⟩
    have hmul : (i + 1) * (L / spectra.length) ≤
        spectra.length * (L / spectra.length) :=
      Nat.mul_le_mul_right _ (by omega)
    omega

/-- Witness for C10: two spectra over an axis of length 5 (chunk size 2);
index 4 keeps the buffer contents. -/
theorem legacy_chunk_tail_unassigned_witness :
    (2 : ℕ) * (5 / 2) < 5 ∧
    ∀ j, (2 : ℕ) * (5 / 2) ≤ j →
      LegacyMotion.add_artifact_chunks
        [fun _ => (1 : ℚ), fun _ => (2 : ℚ)] (fun _ => 37) 5 j = (fun _ => (37 : ℚ)) j := by
  have h := legacy_chunk_tail_unassigned
    [fun _ => (1 : ℚ), fun _ => (2 : ℚ)] (fun _ => 37) 5
    (by simp) (by decide)
  simpa using h

end Torchio
